import Mathlib

/-!
Verification of the wasm module decoder, globals allocator, data-segment
loader, linker and bytecode front end of the v8-native-prototype sources.

Each C++ function that the claims mention is embedded as an executable Lean
definition; machine integers are modelled as Nat with explicit reduction
modulo 2^32 where the C++ computes in uint32.
-/

/-! ## Bounded byte reader and module decoder (decoder state of ModuleDecoder) -/

/-- Latched error record: error_msg, error_pc and error_pt of ModuleResult.
The error code is modelled by the surrounding Option (none = kSuccess). -/
structure DecError where
  pc : Nat
  msg : String
  pt : Option Nat
deriving DecidableEq, Repr

/-- State of the ModuleDecoder byte reader: the module bytes in
the byte range and the cursor cur_ as an index into them (cur_ - start_),
together with the latched error of the embedded ModuleResult. -/
structure ModuleDecoder where
  bytes : List Nat
  pos : Nat
  err : Option DecError
deriving DecidableEq, Repr

namespace ModuleDecoder

/-- ModuleDecoder::error: latches an error only when none is recorded yet
(first error wins). -/
def error (s : ModuleDecoder) (pc : Nat) (msg : String) (pt : Option Nat) :
    ModuleDecoder :=
  match s.err with
  | none => { s with err := some ⟨pc, msg, pt⟩ }
  | some _ => s

/-- ModuleDecoder::checkAvailable: tests whether size bytes remain before
end_; on shortage latches an error at the current position.  (The C++ also
tests cur_ < start_, which cannot occur for a Nat cursor that starts at 0
and only moves forward.) -/
def checkAvailable (s : ModuleDecoder) (size : Nat) : Bool × ModuleDecoder :=
  if s.pos + size > s.bytes.length then
    (false, error s s.pos "expected bytes, fell off end" none)
  else
    (true, s)

/-- ModuleDecoder::u8: reads one byte and advances, or returns 0 on
shortage without advancing. -/
def u8 (s : ModuleDecoder) : Nat × ModuleDecoder :=
  match checkAvailable s 1 with
  | (true, s1) => (s1.bytes.getD s1.pos 0, { s1 with pos := s1.pos + 1 })
  | (false, s1) => (0, s1)

/-- ModuleDecoder::u16: reads a 16-bit little-endian unsigned integer and
advances, or returns 0 on shortage without advancing. -/
def u16 (s : ModuleDecoder) : Nat × ModuleDecoder :=
  match checkAvailable s 2 with
  | (true, s1) =>
    let b0 := s1.bytes.getD s1.pos 0
    let b1 := s1.bytes.getD (s1.pos + 1) 0
    ((b1 <<< 8) ||| b0, { s1 with pos := s1.pos + 2 })
  | (false, s1) => (0, s1)

/-- Value of the 32-bit little-endian unsigned integer stored at position p. -/
def le32 (bytes : List Nat) (p : Nat) : Nat :=
  (bytes.getD (p + 3) 0) <<< 24 ||| (bytes.getD (p + 2) 0) <<< 16 |||
  (bytes.getD (p + 1) 0) <<< 8 ||| bytes.getD p 0

/-- ModuleDecoder::u32: reads a 32-bit little-endian unsigned integer and
advances, or returns 0 on shortage without advancing. -/
def u32 (s : ModuleDecoder) : Nat × ModuleDecoder :=
  match checkAvailable s 4 with
  | (true, s1) =>
    let b0 := s1.bytes.getD s1.pos 0
    let b1 := s1.bytes.getD (s1.pos + 1) 0
    let b2 := s1.bytes.getD (s1.pos + 2) 0
    let b3 := s1.bytes.getD (s1.pos + 3) 0
    (b3 <<< 24 ||| b2 <<< 16 ||| b1 <<< 8 ||| b0, { s1 with pos := s1.pos + 4 })
  | (false, s1) => (0, s1)

/-- ModuleDecoder::offset: reads a u32 and latches an error at the pc of
that u32 (cur_ - 4) when the value exceeds end_ - start_. -/
def offset (s : ModuleDecoder) : Nat × ModuleDecoder :=
  let p := u32 s
  if p.1 > p.2.bytes.length then
    (p.1, error p.2 (p.2.pos - 4) "offset out of bounds of module" none)
  else
    p

/-- ModuleDecoder::string: reads an offset (string validation is a TODO in
the source). -/
def string (s : ModuleDecoder) : Nat × ModuleDecoder := offset s

end ModuleDecoder

/-- Value types of the prototype (kAstStmt .. kAstF64). -/
inductive LocalType where
  | kAstStmt
  | kAstI32
  | kAstI64
  | kAstF32
  | kAstF64
deriving DecidableEq, Repr

/-- Memory access types of the prototype (kMemI8 .. kMemF64). -/
inductive MemType where
  | kMemI8
  | kMemU8
  | kMemI16
  | kMemU16
  | kMemI32
  | kMemU32
  | kMemI64
  | kMemU64
  | kMemF32
  | kMemF64
deriving DecidableEq, Repr

/-- Modelled from the spec: the numeric enum values of LocalType live in
wasm-opcodes.h, which is not under src/; section 3 of the spec lists the
value types in the order Stmt, I32, I64, F32, F64, encoded here as 0..4. -/
def localTypeOfByte (b : Nat) : Option LocalType :=
  match b with
  | 0 => some .kAstStmt
  | 1 => some .kAstI32
  | 2 => some .kAstI64
  | 3 => some .kAstF32
  | 4 => some .kAstF64
  | _ => none

/-- Modelled from the spec: the numeric enum values of MemType live in
wasm-opcodes.h, which is not under src/; section 3 of the spec lists the
memory types in the order I8,U8,I16,U16,I32,U32,I64,U64,F32,F64, encoded
here as 0..9. -/
def memTypeOfByte (b : Nat) : Option MemType :=
  match b with
  | 0 => some .kMemI8
  | 1 => some .kMemU8
  | 2 => some .kMemI16
  | 3 => some .kMemU16
  | 4 => some .kMemI32
  | 5 => some .kMemU32
  | 6 => some .kMemI64
  | 7 => some .kMemU64
  | 8 => some .kMemF32
  | 9 => some .kMemF64
  | _ => none

namespace ModuleDecoder

/-- ModuleDecoder::local_type: reads a byte and interprets it as a local
type; an invalid value latches an error at cur_ - 1 and yields kAstStmt. -/
def local_type (s : ModuleDecoder) : LocalType × ModuleDecoder :=
  let p := u8 s
  match localTypeOfByte p.1 with
  | some t => (t, p.2)
  | none => (.kAstStmt, error p.2 (p.2.pos - 1) "invalid local type" none)

/-- ModuleDecoder::mem_type: reads a byte and interprets it as a memory
type; an invalid value latches an error at cur_ - 1 and yields kMemI32. -/
def mem_type (s : ModuleDecoder) : MemType × ModuleDecoder :=
  let p := u8 s
  match memTypeOfByte p.1 with
  | some t => (t, p.2)
  | none => (.kMemI32, error p.2 (p.2.pos - 1) "invalid memory type" none)

end ModuleDecoder

/-- Function signature: optional return type and parameter types (the
builder adds one return unless the return byte decodes to kAstStmt). -/
structure FunctionSig where
  ret : LocalType
  params : List LocalType
deriving DecidableEq, Repr

namespace ModuleDecoder

/-- Parameter loop of ModuleDecoder::sig: reads count parameter types,
latching an error for a kAstStmt parameter. -/
def readParams : Nat → ModuleDecoder → List LocalType × ModuleDecoder
  | 0, s => ([], s)
  | n + 1, s =>
    let p := local_type s
    let s2 :=
      if p.1 = .kAstStmt then
        error p.2 (p.2.pos - 1) "invalid void parameter type" none
      else p.2
    let rest := readParams n s2
    (p.1 :: rest.1, rest.2)

/-- ModuleDecoder::sig: reads a parameter count byte, a return type, and
the parameter types. -/
def sig (s : ModuleDecoder) : FunctionSig × ModuleDecoder :=
  let pc := u8 s
  let pr := local_type pc.2
  let pp := readParams pc.1 pr.2
  (⟨pr.1, pp.1⟩, pp.2)

end ModuleDecoder

/-- One primitive decoding operation of the ModuleDecoder, used to state
the latched-error invariant uniformly over the decoder's operations. -/
inductive DecOp where
  | opU8
  | opU16
  | opU32
  | opOffset
  | opString
  | opLocalType
  | opMemType
  | opSig
  | opError (pc : Nat) (msg : String) (pt : Option Nat)
deriving DecidableEq, Repr

/-- State effect of one decoding operation. -/
def applyOp : DecOp → ModuleDecoder → ModuleDecoder
  | .opU8, s => (ModuleDecoder.u8 s).2
  | .opU16, s => (ModuleDecoder.u16 s).2
  | .opU32, s => (ModuleDecoder.u32 s).2
  | .opOffset, s => (ModuleDecoder.offset s).2
  | .opString, s => (ModuleDecoder.string s).2
  | .opLocalType, s => (ModuleDecoder.local_type s).2
  | .opMemType, s => (ModuleDecoder.mem_type s).2
  | .opSig, s => (ModuleDecoder.sig s).2
  | .opError pc msg pt, s => ModuleDecoder.error s pc msg pt

section DecoderLemmas

open ModuleDecoder

theorem error_preserves (s : ModuleDecoder) (pc : Nat) (msg : String)
    (pt : Option Nat) (e : DecError) (h : s.err = some e) :
    (error s pc msg pt).err = some e := by
  unfold error
  rw [h]
  exact h

theorem checkAvailable_preserves (s : ModuleDecoder) (n : Nat) (e : DecError)
    (h : s.err = some e) : (checkAvailable s n).2.err = some e := by
  unfold checkAvailable
  split
  · exact error_preserves s s.pos _ none e h
  · exact h

theorem u8_preserves (s : ModuleDecoder) (e : DecError) (h : s.err = some e) :
    (u8 s).2.err = some e := by
  have hca := checkAvailable_preserves s 1 e h
  unfold u8
  rcases hc : checkAvailable s 1 with ⟨b, s1⟩
  rw [hc] at hca
  cases b <;> simpa using hca

theorem u16_preserves (s : ModuleDecoder) (e : DecError) (h : s.err = some e) :
    (u16 s).2.err = some e := by
  have hca := checkAvailable_preserves s 2 e h
  unfold u16
  rcases hc : checkAvailable s 2 with ⟨b, s1⟩
  rw [hc] at hca
  cases b <;> simpa using hca

theorem u32_preserves (s : ModuleDecoder) (e : DecError) (h : s.err = some e) :
    (u32 s).2.err = some e := by
  have hca := checkAvailable_preserves s 4 e h
  unfold u32
  rcases hc : checkAvailable s 4 with ⟨b, s1⟩
  rw [hc] at hca
  cases b <;> simpa using hca

theorem offset_preserves (s : ModuleDecoder) (e : DecError)
    (h : s.err = some e) : (ModuleDecoder.offset s).2.err = some e := by
  have hu := u32_preserves s e h
  simp only [ModuleDecoder.offset]
  split
  · exact error_preserves _ _ _ _ e hu
  · exact hu

theorem local_type_preserves (s : ModuleDecoder) (e : DecError)
    (h : s.err = some e) : (local_type s).2.err = some e := by
  have hu := u8_preserves s e h
  simp only [local_type]
  cases hp : localTypeOfByte (u8 s).1 with
  | none => simpa [hp] using error_preserves _ _ _ _ e hu
  | some t => simpa [hp] using hu

theorem mem_type_preserves (s : ModuleDecoder) (e : DecError)
    (h : s.err = some e) : (mem_type s).2.err = some e := by
  have hu := u8_preserves s e h
  simp only [mem_type]
  cases hp : memTypeOfByte (u8 s).1 with
  | none => simpa [hp] using error_preserves _ _ _ _ e hu
  | some t => simpa [hp] using hu

theorem readParams_preserves (n : Nat) (s : ModuleDecoder) (e : DecError)
    (h : s.err = some e) : (readParams n s).2.err = some e := by
  induction n generalizing s with
  | zero => simpa [readParams] using h
  | succ n ih =>
    have hlt := local_type_preserves s e h
    simp only [readParams]
    apply ih
    split
    · exact error_preserves _ _ _ _ e hlt
    · exact hlt

theorem sig_preserves (s : ModuleDecoder) (e : DecError)
    (h : s.err = some e) : (sig s).2.err = some e := by
  unfold sig
  exact readParams_preserves _ _ e (local_type_preserves _ e (u8_preserves s e h))

end DecoderLemmas

section DecoderTheorems

open ModuleDecoder

theorem error_latches (s : ModuleDecoder) (pc : Nat) (msg : String)
    (pt : Option Nat) : (error s pc msg pt).err ≠ none := by
  unfold error
  cases h : s.err with
  | none => simp
  | some e => simp [h]

theorem u8_avail (s : ModuleDecoder) (h : s.pos + 1 ≤ s.bytes.length) :
    u8 s = (s.bytes.getD s.pos 0, { s with pos := s.pos + 1 }) := by
  unfold u8 checkAvailable
  rw [if_neg (by omega)]

theorem u16_avail (s : ModuleDecoder) (h : s.pos + 2 ≤ s.bytes.length) :
    u16 s = ((s.bytes.getD (s.pos + 1) 0) <<< 8 ||| s.bytes.getD s.pos 0,
             { s with pos := s.pos + 2 }) := by
  unfold u16 checkAvailable
  rw [if_neg (by omega)]

theorem u32_avail (s : ModuleDecoder) (h : s.pos + 4 ≤ s.bytes.length) :
    u32 s = (le32 s.bytes s.pos, { s with pos := s.pos + 4 }) := by
  unfold u32 checkAvailable le32
  rw [if_neg (by omega)]

theorem u8_short (s : ModuleDecoder) (h : s.bytes.length < s.pos + 1) :
    u8 s = (0, error s s.pos "expected bytes, fell off end" none) := by
  unfold u8 checkAvailable
  rw [if_pos (by omega)]

theorem u16_short (s : ModuleDecoder) (h : s.bytes.length < s.pos + 2) :
    u16 s = (0, error s s.pos "expected bytes, fell off end" none) := by
  unfold u16 checkAvailable
  rw [if_pos (by omega)]

theorem u32_short (s : ModuleDecoder) (h : s.bytes.length < s.pos + 4) :
    u32 s = (0, error s s.pos "expected bytes, fell off end" none) := by
  unfold u32 checkAvailable
  rw [if_pos (by omega)]

theorem error_keeps_pos (s : ModuleDecoder) (pc : Nat) (msg : String)
    (pt : Option Nat) : (error s pc msg pt).pos = s.pos := by
  unfold error
  cases s.err <;> rfl

/-- C2 (amended): on shortage each of u8/u16/u32 latches an error, returns
0 and does not advance; but reads do NOT short-circuit once an error is
latched: whenever enough bytes remain, a read returns the little-endian
value at the current position and advances, leaving the latched error
untouched, regardless of whether an error was latched before. -/
theorem decoder_reads_shortage_latch_no_short_circuit :
    (∀ s : ModuleDecoder, s.bytes.length < s.pos + 1 →
       (u8 s).1 = 0 ∧ (u8 s).2.pos = s.pos ∧ (u8 s).2.err ≠ none) ∧
    (∀ s : ModuleDecoder, s.bytes.length < s.pos + 2 →
       (u16 s).1 = 0 ∧ (u16 s).2.pos = s.pos ∧ (u16 s).2.err ≠ none) ∧
    (∀ s : ModuleDecoder, s.bytes.length < s.pos + 4 →
       (u32 s).1 = 0 ∧ (u32 s).2.pos = s.pos ∧ (u32 s).2.err ≠ none) ∧
    (∀ s : ModuleDecoder, s.pos + 1 ≤ s.bytes.length →
       u8 s = (s.bytes.getD s.pos 0, { s with pos := s.pos + 1 })) ∧
    (∀ s : ModuleDecoder, s.pos + 2 ≤ s.bytes.length →
       u16 s = ((s.bytes.getD (s.pos + 1) 0) <<< 8 ||| s.bytes.getD s.pos 0,
                { s with pos := s.pos + 2 })) ∧
    (∀ s : ModuleDecoder, s.pos + 4 ≤ s.bytes.length →
       u32 s = (le32 s.bytes s.pos, { s with pos := s.pos + 4 })) := by
  refine ⟨fun s h => ?_, fun s h => ?_, fun s h => ?_,
          u8_avail, u16_avail, u32_avail⟩
  · rw [u8_short s h]
    exact ⟨rfl, error_keeps_pos s _ _ _, error_latches s _ _ _⟩
  · rw [u16_short s h]
    exact ⟨rfl, error_keeps_pos s _ _ _, error_latches s _ _ _⟩
  · rw [u32_short s h]
    exact ⟨rfl, error_keeps_pos s _ _ _, error_latches s _ _ _⟩

theorem decoder_reads_witness :
    (([] : List Nat).length < 0 + 1 ∧
      ((u8 ⟨[], 0, none⟩).1 = 0 ∧ (u8 ⟨[], 0, none⟩).2.pos = 0 ∧
       (u8 ⟨[], 0, none⟩).2.err ≠ none)) ∧
    (0 + 1 ≤ ([9] : List Nat).length ∧
      u8 ⟨[9], 0, some ⟨0, "x", none⟩⟩ =
        (([9] : List Nat).getD 0 0, ⟨[9], 0 + 1, some ⟨0, "x", none⟩⟩)) :=
  ⟨⟨by decide, decoder_reads_shortage_latch_no_short_circuit.1 ⟨[], 0, none⟩ (by decide)⟩,
   ⟨by decide,
    decoder_reads_shortage_latch_no_short_circuit.2.2.2.1 ⟨[9], 0, some ⟨0, "x", none⟩⟩
      (by decide)⟩⟩

/-- C2: counterexample to the claim as stated.  After an error has been
latched (here by a truncated u32 on a 2-byte module), a subsequent u8 does
NOT short-circuit to 0: it returns the byte 7 at the current position and
advances the position to 1. -/
theorem decoder_short_circuit_cex :
    ((u32 ⟨[7, 8], 0, none⟩).2.err ≠ none) ∧
    (u8 (u32 ⟨[7, 8], 0, none⟩).2).1 = 7 ∧
    (u8 (u32 ⟨[7, 8], 0, none⟩).2).2.pos = 1 := by
  refine ⟨by decide, by decide, by decide⟩

/-- C7: with no latched error and four bytes available, offset reads the
32-bit little-endian value v at the current position, advances by four,
accepts v whenever v ≤ end - start (in particular v = end - start), and
latches an error whose pc is the position of the u32 just read exactly
when v > end - start. -/
theorem offset_u32_bounds (s : ModuleDecoder) (he : s.err = none)
    (hav : s.pos + 4 ≤ s.bytes.length) :
    (ModuleDecoder.offset s).1 = le32 s.bytes s.pos ∧
    (ModuleDecoder.offset s).2.pos = s.pos + 4 ∧
    (le32 s.bytes s.pos ≤ s.bytes.length →
      (ModuleDecoder.offset s).2.err = none) ∧
    (s.bytes.length < le32 s.bytes s.pos →
      (ModuleDecoder.offset s).2.err =
        some ⟨s.pos, "offset out of bounds of module", none⟩) := by
  simp only [ModuleDecoder.offset, u32_avail s hav]
  by_cases hb : s.bytes.length < le32 s.bytes s.pos
  · rw [if_pos (by simpa using hb)]
    refine ⟨rfl, ?_, fun hle => absurd hb (by omega), fun _ => ?_⟩
    · rw [error_keeps_pos]
    · unfold error
      rw [he]
      simp
  · rw [if_neg (by simpa using hb)]
    exact ⟨rfl, rfl, fun _ => he, fun hlt => absurd hlt hb⟩

theorem offset_u32_bounds_witness :
    ((⟨[5, 0, 0, 0], 0, none⟩ : ModuleDecoder).err = none ∧
      0 + 4 ≤ ([5, 0, 0, 0] : List Nat).length) ∧
    ((ModuleDecoder.offset ⟨[5, 0, 0, 0], 0, none⟩).1 = le32 [5, 0, 0, 0] 0 ∧
     (ModuleDecoder.offset ⟨[5, 0, 0, 0], 0, none⟩).2.pos = 0 + 4 ∧
     (le32 [5, 0, 0, 0] 0 ≤ ([5, 0, 0, 0] : List Nat).length →
       (ModuleDecoder.offset ⟨[5, 0, 0, 0], 0, none⟩).2.err = none) ∧
     (([5, 0, 0, 0] : List Nat).length < le32 [5, 0, 0, 0] 0 →
       (ModuleDecoder.offset ⟨[5, 0, 0, 0], 0, none⟩).2.err =
         some ⟨0, "offset out of bounds of module", none⟩)) :=
  ⟨⟨rfl, by decide⟩, offset_u32_bounds ⟨[5, 0, 0, 0], 0, none⟩ rfl (by decide)⟩

/-- C8: first-error-wins is an invariant of the decoder: once an error
(with its pc, message and optional pt) is latched, no later decoding
operation overwrites it; the latched record after any further operation is
exactly the first error. -/
theorem decoder_first_error_wins (op : DecOp) (s : ModuleDecoder)
    (e : DecError) (h : s.err = some e) : (applyOp op s).err = some e := by
  cases op with
  | opU8 => exact u8_preserves s e h
  | opU16 => exact u16_preserves s e h
  | opU32 => exact u32_preserves s e h
  | opOffset => exact offset_preserves s e h
  | opString => exact offset_preserves s e h
  | opLocalType => exact local_type_preserves s e h
  | opMemType => exact mem_type_preserves s e h
  | opSig => exact sig_preserves s e h
  | opError pc msg pt => exact error_preserves s pc msg pt e h

theorem decoder_first_error_wins_witness :
    (⟨[1, 2], 0, some ⟨0, "first", none⟩⟩ : ModuleDecoder).err =
      some ⟨0, "first", none⟩ ∧
    (applyOp .opOffset ⟨[1, 2], 0, some ⟨0, "first", none⟩⟩).err =
      some ⟨0, "first", none⟩ :=
  ⟨rfl, decoder_first_error_wins .opOffset ⟨[1, 2], 0, some ⟨0, "first", none⟩⟩
    ⟨0, "first", none⟩ rfl⟩

end DecoderTheorems

/-! ## Global-variable offset assignment (AllocateGlobalsOffsets,
ComputeGlobalsSize) -/

/-- Modelled from the spec: WasmOpcodes::MemSize lives in wasm-opcodes.h,
which is not under src/; section 3 of the spec fixes the byte sizes of the
memory types as (1,1,2,2,4,4,8,8,4,8). -/
def MemSize : MemType → Nat
  | .kMemI8 => 1
  | .kMemU8 => 1
  | .kMemI16 => 2
  | .kMemU16 => 2
  | .kMemI32 => 4
  | .kMemU32 => 4
  | .kMemI64 => 8
  | .kMemU64 => 8
  | .kMemF32 => 4
  | .kMemF64 => 8

/-- WasmGlobal: a global variable entry of the module. -/
structure WasmGlobal where
  name_offset : Nat
  type : MemType
  offset : Nat
  exported : Bool
deriving DecidableEq, Repr

/-- Loop body of AllocateGlobalsOffsets.  The C++ keeps the running offset
in a uint32: the rounding mask (offset + size - 1) AND NOT (size - 1) is
computed modulo 2^32, with NOT (size - 1) equal to 2^32 - size for the
power-of-two sizes of MemSize. -/
def allocGo : List WasmGlobal → Nat → List WasmGlobal × Nat
  | [], off => ([], off)
  | g :: gs, off =>
    let size := MemSize g.type
    let aligned := ((off + size - 1) % 2 ^ 32) &&& (2 ^ 32 - size)
    let rest := allocGo gs ((aligned + size) % 2 ^ 32)
    ({ g with offset := aligned } :: rest.1, rest.2)

/-- AllocateGlobalsOffsets: assigns each global an offset in a single pass
and returns the running offset after the last global. -/
def AllocateGlobalsOffsets (globals : List WasmGlobal) :
    List WasmGlobal × Nat :=
  allocGo globals 0

/-- Loop body of ComputeGlobalsSize: end = offset + size in uint32, kept
when it exceeds the running maximum. -/
def cgsStep (acc : Nat) (g : WasmGlobal) : Nat :=
  if (g.offset + MemSize g.type) % 2 ^ 32 > acc then
    (g.offset + MemSize g.type) % 2 ^ 32
  else acc

/-- ComputeGlobalsSize: the maximum over all globals of offset + size,
with the addition performed in uint32. -/
def ComputeGlobalsSize (globals : List WasmGlobal) : Nat :=
  globals.foldl cgsStep 0

/-- Round off up to the next multiple of size (the natural-alignment
round-up the spec describes). -/
def roundUpTo (off size : Nat) : Nat := (off + size - 1) / size * size

/-- Single pass written exactly as the spec words it: round the running
offset up to the global's byte size, assign it, then advance by the size. -/
def specAllocGo : List WasmGlobal → Nat → List WasmGlobal × Nat
  | [], off => ([], off)
  | g :: gs, off =>
    let size := MemSize g.type
    let aligned := roundUpTo off size
    let rest := specAllocGo gs (aligned + size)
    ({ g with offset := aligned } :: rest.1, rest.2)

/-- Spec-side offset assignment started at offset 0. -/
def specAllocateGlobals (globals : List WasmGlobal) :
    List WasmGlobal × Nat :=
  specAllocGo globals 0

theorem land_pow_sub_pow (x k n : Nat) (hk : k ≤ n) (hx : x < 2 ^ n) :
    x &&& (2 ^ n - 2 ^ k) = x / 2 ^ k * 2 ^ k := by
  have hpow : 2 ^ k * 2 ^ (n - k) = 2 ^ n := by
    rw [← pow_add]
    congr 1
    omega
  have hmask : 2 ^ n - 2 ^ k = 2 ^ k * (2 ^ (n - k) - 1) := by
    rw [Nat.mul_sub, hpow, Nat.mul_one]
  have hdm : x / 2 ^ k * 2 ^ k = 2 ^ k * (x / 2 ^ k) := Nat.mul_comm _ _
  apply Nat.eq_of_testBit_eq
  intro i
  rw [Nat.testBit_and, hmask, hdm, Nat.testBit_mul_pow_two,
      Nat.testBit_mul_pow_two, Nat.testBit_two_pow_sub_one]
  rcases Nat.lt_or_ge i k with hik | hik
  · simp [Nat.not_le_of_lt hik]
  · rcases Nat.lt_or_ge i n with hin | hin
    · have h1 : i - k < n - k := by omega
      have h2 : x / 2 ^ k = x >>> k := by
        rw [Nat.shiftRight_eq_div_pow]
      simp [hik, h1, h2, Nat.testBit_shiftRight, Nat.add_sub_cancel' hik]
    · have h1 : ¬ (i - k < n - k) := by omega
      have hxb : x.testBit i = false :=
        Nat.testBit_lt_two_pow
          (Nat.lt_of_lt_of_le hx (Nat.pow_le_pow_right (by omega) hin))
      have h2 : x / 2 ^ k = x >>> k := by
        rw [Nat.shiftRight_eq_div_pow]
      simp [hik, h1, h2, Nat.testBit_shiftRight, Nat.add_sub_cancel' hik, hxb]

theorem le_roundUpTo (a b : Nat) (hb : 0 < b) : a ≤ roundUpTo a b := by
  have h1 := @Nat.lt_div_mul_add (a + b - 1) b hb
  unfold roundUpTo
  omega

theorem roundUpTo_le (a b : Nat) : roundUpTo a b ≤ a + b - 1 :=
  Nat.div_mul_le_self _ _

theorem MemSize_pow (t : MemType) : ∃ k, k ≤ 3 ∧ MemSize t = 2 ^ k := by
  cases t
  · exact ⟨0, by omega, rfl⟩
  · exact ⟨0, by omega, rfl⟩
  · exact ⟨1, by omega, rfl⟩
  · exact ⟨1, by omega, rfl⟩
  · exact ⟨2, by omega, rfl⟩
  · exact ⟨2, by omega, rfl⟩
  · exact ⟨3, by omega, rfl⟩
  · exact ⟨3, by omega, rfl⟩
  · exact ⟨2, by omega, rfl⟩
  · exact ⟨3, by omega, rfl⟩

theorem MemSize_pos (t : MemType) : 0 < MemSize t := by
  cases t <;> simp [MemSize]

theorem MemSize_le_eight (t : MemType) : MemSize t ≤ 8 := by
  cases t <;> simp [MemSize]

/-- The uint32 single pass of the source equals the spec's round-up pass
as long as the running offset cannot wrap (15 bytes of worst-case growth
per global). -/
theorem allocGo_eq_spec :
    ∀ (gs : List WasmGlobal) (off : Nat),
      off + 15 * gs.length < 2 ^ 32 → allocGo gs off = specAllocGo gs off := by
  intro gs
  induction gs with
  | nil => intro off _; rfl
  | cons g gs ih =>
    intro off hoff
    obtain ⟨k, hk, hsz⟩ := MemSize_pow g.type
    have hpos := MemSize_pos g.type
    have hle8 := MemSize_le_eight g.type
    have hlen : 15 * (g :: gs).length = 15 * gs.length + 15 := by
      simp [List.length_cons]
      ring
    have hx : off + MemSize g.type - 1 < 2 ^ 32 := by omega
    have hmod1 : (off + MemSize g.type - 1) % 2 ^ 32 =
        off + MemSize g.type - 1 := Nat.mod_eq_of_lt hx
    have hland : (off + MemSize g.type - 1) &&& (2 ^ 32 - MemSize g.type) =
        roundUpTo off (MemSize g.type) := by
      rw [hsz]
      exact land_pow_sub_pow _ k 32 (by omega) (by omega)
    have hrle : roundUpTo off (MemSize g.type) ≤ off + MemSize g.type - 1 :=
      roundUpTo_le _ _
    have hmod2 : (roundUpTo off (MemSize g.type) + MemSize g.type) % 2 ^ 32 =
        roundUpTo off (MemSize g.type) + MemSize g.type := by
      apply Nat.mod_eq_of_lt
      omega
    have hrec := ih (roundUpTo off (MemSize g.type) + MemSize g.type)
      (by omega)
    simp only [allocGo, specAllocGo, hmod1, hland, hmod2, hrec]

theorem specAllocGo_final_ge :
    ∀ (gs : List WasmGlobal) (off : Nat), off ≤ (specAllocGo gs off).2 := by
  intro gs
  induction gs with
  | nil => intro off; exact Nat.le_refl off
  | cons g gs ih =>
    intro off
    have h1 : off ≤ roundUpTo off (MemSize g.type) :=
      le_roundUpTo off (MemSize g.type) (MemSize_pos g.type)
    have h2 := ih (roundUpTo off (MemSize g.type) + MemSize g.type)
    simp only [specAllocGo]
    omega

theorem specAllocGo_final_le :
    ∀ (gs : List WasmGlobal) (off : Nat),
      (specAllocGo gs off).2 ≤ off + 15 * gs.length := by
  intro gs
  induction gs with
  | nil => intro off; simp [specAllocGo]
  | cons g gs ih =>
    intro off
    have hpos := MemSize_pos g.type
    have hle8 := MemSize_le_eight g.type
    have h1 : roundUpTo off (MemSize g.type) ≤ off + MemSize g.type - 1 :=
      roundUpTo_le _ _
    have h2 := ih (roundUpTo off (MemSize g.type) + MemSize g.type)
    simp only [specAllocGo, List.length_cons]
    omega

theorem specAllocGo_mem_range :
    ∀ (gs : List WasmGlobal) (off : Nat) (g : WasmGlobal),
      g ∈ (specAllocGo gs off).1 →
      off ≤ g.offset ∧ g.offset + MemSize g.type ≤ (specAllocGo gs off).2 := by
  intro gs
  induction gs with
  | nil => intro off g hg; simp [specAllocGo] at hg
  | cons a gs ih =>
    intro off g hg
    have hpos := MemSize_pos a.type
    have hup : off ≤ roundUpTo off (MemSize a.type) :=
      le_roundUpTo off (MemSize a.type) hpos
    have hfin := specAllocGo_final_ge gs
      (roundUpTo off (MemSize a.type) + MemSize a.type)
    simp only [specAllocGo, List.mem_cons] at hg ⊢
    rcases hg with hg | hg
    · subst hg
      constructor
      · exact hup
      · simpa using hfin
    · have := ih (roundUpTo off (MemSize a.type) + MemSize a.type) g hg
      omega

theorem specAllocGo_chain :
    ∀ (gs : List WasmGlobal) (off : Nat),
      List.Pairwise (fun a b => a.offset + MemSize a.type ≤ b.offset)
        (specAllocGo gs off).1 := by
  intro gs
  induction gs with
  | nil => intro off; simp [specAllocGo]
  | cons a gs ih =>
    intro off
    simp only [specAllocGo]
    refine List.Pairwise.cons ?_ (ih _)
    intro b hb
    have hm := specAllocGo_mem_range gs
      (roundUpTo off (MemSize a.type) + MemSize a.type) b hb
    simpa using hm.1

theorem specAllocGo_aligned :
    ∀ (gs : List WasmGlobal) (off : Nat) (g : WasmGlobal),
      g ∈ (specAllocGo gs off).1 → g.offset % MemSize g.type = 0 := by
  intro gs
  induction gs with
  | nil => intro off g hg; simp [specAllocGo] at hg
  | cons a gs ih =>
    intro off g hg
    simp only [specAllocGo, List.mem_cons] at hg
    rcases hg with hg | hg
    · subst hg
      simp [roundUpTo, Nat.mul_mod_left]
    · exact ih _ g hg

theorem cgsStep_ge (acc : Nat) (g : WasmGlobal) : acc ≤ cgsStep acc g := by
  unfold cgsStep
  split <;> omega

theorem foldl_cgs_ge :
    ∀ (l : List WasmGlobal) (acc : Nat), acc ≤ l.foldl cgsStep acc := by
  intro l
  induction l with
  | nil => intro acc; exact Nat.le_refl acc
  | cons g l ih =>
    intro acc
    exact Nat.le_trans (cgsStep_ge acc g) (ih (cgsStep acc g))

theorem cgsStep_covers (acc : Nat) (g : WasmGlobal)
    (h : g.offset + MemSize g.type < 2 ^ 32) :
    g.offset + MemSize g.type ≤ cgsStep acc g := by
  unfold cgsStep
  rw [Nat.mod_eq_of_lt h]
  split <;> omega

theorem foldl_cgs_covers :
    ∀ (l : List WasmGlobal) (acc : Nat) (g : WasmGlobal), g ∈ l →
      g.offset + MemSize g.type < 2 ^ 32 →
      g.offset + MemSize g.type ≤ l.foldl cgsStep acc := by
  intro l
  induction l with
  | nil => intro acc g hg; simp at hg
  | cons a l ih =>
    intro acc g hg hb
    simp only [List.mem_cons] at hg
    simp only [List.foldl_cons]
    rcases hg with hg | hg
    · subst hg
      exact Nat.le_trans (cgsStep_covers acc g hb) (foldl_cgs_ge l _)
    · exact ih (cgsStep acc a) g hg hb

/-- C3: offset assignment is a single pass that, for each global in order,
rounds the running offset up to the global's byte size (its natural
alignment), assigns that rounded value to the global, and advances the
running offset by the size.  With at most 65536 globals (the u16 count of
the module format) the uint32 pass of the source equals that round-up
pass exactly. -/
theorem allocate_globals_offsets_rounds_up (gs : List WasmGlobal)
    (h : gs.length ≤ 65536) :
    AllocateGlobalsOffsets gs = specAllocateGlobals gs := by
  unfold AllocateGlobalsOffsets specAllocateGlobals
  apply allocGo_eq_spec
  have h15 : 15 * gs.length ≤ 15 * 65536 := Nat.mul_le_mul_left 15 h
  omega

theorem allocate_globals_offsets_rounds_up_witness :
    ([(⟨0, .kMemI8, 0, false⟩ : WasmGlobal), ⟨4, .kMemI32, 0, false⟩,
      ⟨8, .kMemU16, 0, true⟩] : List WasmGlobal).length ≤ 65536 ∧
    AllocateGlobalsOffsets
        [⟨0, .kMemI8, 0, false⟩, ⟨4, .kMemI32, 0, false⟩,
         ⟨8, .kMemU16, 0, true⟩] =
      specAllocateGlobals
        [⟨0, .kMemI8, 0, false⟩, ⟨4, .kMemI32, 0, false⟩,
         ⟨8, .kMemU16, 0, true⟩] :=
  ⟨by decide,
   allocate_globals_offsets_rounds_up
     [⟨0, .kMemI8, 0, false⟩, ⟨4, .kMemI32, 0, false⟩, ⟨8, .kMemU16, 0, true⟩]
     (by decide)⟩

/-- C9: after offset assignment (for any list of at most 65536 globals,
the u16 count of the module format), every assigned offset is a multiple
of its type's byte size, the byte ranges of distinct globals are pairwise
disjoint, and the globals-area size computed by ComputeGlobalsSize covers
every global's byte range. -/
theorem globals_layout_well_formed (gs : List WasmGlobal)
    (h : gs.length ≤ 65536) :
    (∀ g ∈ (AllocateGlobalsOffsets gs).1, g.offset % MemSize g.type = 0) ∧
    List.Pairwise
      (fun a b => a.offset + MemSize a.type ≤ b.offset ∨
                  b.offset + MemSize b.type ≤ a.offset)
      (AllocateGlobalsOffsets gs).1 ∧
    (∀ g ∈ (AllocateGlobalsOffsets gs).1,
       g.offset + MemSize g.type ≤
         ComputeGlobalsSize (AllocateGlobalsOffsets gs).1) := by
  have h15 : 15 * gs.length ≤ 15 * 65536 := Nat.mul_le_mul_left 15 h
  have heq : AllocateGlobalsOffsets gs = specAllocateGlobals gs := by
    unfold AllocateGlobalsOffsets specAllocateGlobals
    apply allocGo_eq_spec
    omega
  rw [heq]
  unfold specAllocateGlobals
  refine ⟨fun g hg => specAllocGo_aligned gs 0 g hg, ?_, fun g hg => ?_⟩
  · exact (specAllocGo_chain gs 0).imp Or.inl
  · have hrange := specAllocGo_mem_range gs 0 g hg
    have hfin := specAllocGo_final_le gs 0
    unfold ComputeGlobalsSize
    exact foldl_cgs_covers _ 0 g hg (by omega)

theorem globals_layout_well_formed_witness :
    ([(⟨0, .kMemU8, 0, false⟩ : WasmGlobal), ⟨4, .kMemF64, 0, false⟩,
      ⟨8, .kMemI16, 0, false⟩] : List WasmGlobal).length ≤ 65536 ∧
    ((∀ g ∈ (AllocateGlobalsOffsets
        [(⟨0, .kMemU8, 0, false⟩ : WasmGlobal), ⟨4, .kMemF64, 0, false⟩,
         ⟨8, .kMemI16, 0, false⟩]).1, g.offset % MemSize g.type = 0) ∧
     List.Pairwise
       (fun a b => a.offset + MemSize a.type ≤ b.offset ∨
                   b.offset + MemSize b.type ≤ a.offset)
       (AllocateGlobalsOffsets
         [(⟨0, .kMemU8, 0, false⟩ : WasmGlobal), ⟨4, .kMemF64, 0, false⟩,
          ⟨8, .kMemI16, 0, false⟩]).1 ∧
     (∀ g ∈ (AllocateGlobalsOffsets
        [(⟨0, .kMemU8, 0, false⟩ : WasmGlobal), ⟨4, .kMemF64, 0, false⟩,
         ⟨8, .kMemI16, 0, false⟩]).1,
        g.offset + MemSize g.type ≤
          ComputeGlobalsSize (AllocateGlobalsOffsets
            [(⟨0, .kMemU8, 0, false⟩ : WasmGlobal), ⟨4, .kMemF64, 0, false⟩,
             ⟨8, .kMemI16, 0, false⟩]).1)) :=
  ⟨by decide,
   globals_layout_well_formed
     [⟨0, .kMemU8, 0, false⟩, ⟨4, .kMemF64, 0, false⟩, ⟨8, .kMemI16, 0, false⟩]
     (by decide)⟩

/-! ## Data segments (LoadDataSegments) -/

/-- WasmDataSegment: a data segment entry of the module. -/
structure WasmDataSegment where
  dest_addr : Nat
  source_offset : Nat
  source_size : Nat
  init : Bool
deriving DecidableEq, Repr

/-- One iteration of the LoadDataSegments loop.  Segments with init false
are skipped.  For an init segment the source CHECKs (hard errors, modelled
as none) that dest_addr < mem_size, source_size < mem_size and
dest_addr + source_size < mem_size, the sum being a uint32 addition; it
then memcpy-s source_size bytes of the module bytes at source_offset into
the memory at dest_addr. -/
def LoadDataSegment (module_bytes mem : List Nat) (seg : WasmDataSegment) :
    Option (List Nat) :=
  if seg.init = false then some mem
  else if seg.dest_addr < mem.length ∧ seg.source_size < mem.length ∧
          (seg.dest_addr + seg.source_size) % 2 ^ 32 < mem.length then
    some (mem.take seg.dest_addr ++
          (module_bytes.drop seg.source_offset).take seg.source_size ++
          mem.drop (seg.dest_addr + seg.source_size))
  else none

/-- LoadDataSegments: applies the segments in order; the first CHECK
failure aborts (hard error). -/
def LoadDataSegments (module_bytes : List Nat)
    (segs : List WasmDataSegment) (mem : List Nat) : Option (List Nat) :=
  match segs with
  | [] => some mem
  | seg :: rest =>
    match LoadDataSegment module_bytes mem seg with
    | some mem2 => LoadDataSegments module_bytes rest mem2
    | none => none

theorem LoadDataSegments_singleton (module_bytes mem : List Nat)
    (seg : WasmDataSegment) :
    LoadDataSegments module_bytes [seg] mem =
      LoadDataSegment module_bytes mem seg := by
  unfold LoadDataSegments
  cases h : LoadDataSegment module_bytes mem seg <;> simp [LoadDataSegments]

/-- C1 counterexample: a data segment that ends exactly at mem_size
(dest_addr 0, source_size 1, mem_size 1) satisfies
dest_addr + source_size ≤ mem_size, yet loading it is a hard error: the
source checks CHECK_LT(dest_addr + source_size, mem_size) strictly. -/
theorem load_data_segments_boundary_cex :
    0 + 1 ≤ 1 ∧
    LoadDataSegments [42] [⟨0, 0, 1, true⟩] [0] = none :=
  ⟨by decide, by decide⟩

/-- C1 (amended): for an init=true data segment and a memory of size at
most 2^31 bytes (any memory the instantiator can allocate), loading is a
hard error exactly when dest_addr + source_size ≥ mem_size — so a segment
ending exactly at mem_size is rejected — and otherwise it succeeds and
copies source_size bytes from the module bytes at source_offset into the
memory at dest_addr, leaving all other memory bytes unchanged. -/
theorem load_data_segments_bounds (module_bytes mem : List Nat)
    (seg : WasmDataSegment) (hinit : seg.init = true)
    (hm : mem.length ≤ 2 ^ 31) :
    (LoadDataSegments module_bytes [seg] mem = none ↔
      mem.length ≤ seg.dest_addr + seg.source_size) ∧
    (seg.dest_addr + seg.source_size < mem.length →
     seg.source_offset + seg.source_size ≤ module_bytes.length →
     ∃ mem2, LoadDataSegments module_bytes [seg] mem = some mem2 ∧
       mem2.length = mem.length ∧
       (∀ j, j < seg.source_size →
          mem2[seg.dest_addr + j]? = module_bytes[seg.source_offset + j]?) ∧
       (∀ a, a < seg.dest_addr → mem2[a]? = mem[a]?) ∧
       (∀ a, seg.dest_addr + seg.source_size ≤ a → mem2[a]? = mem[a]?)) := by
  rw [LoadDataSegments_singleton]
  set d := seg.dest_addr with hd
  set off := seg.source_offset with hoff
  set s := seg.source_size with hs
  have h32 : (2 : Nat) ^ 32 = 4294967296 := by norm_num
  have h31 : (2 : Nat) ^ 31 = 2147483648 := by norm_num
  rw [h31] at hm
  constructor
  · unfold LoadDataSegment
    simp only [h32, ← hd, ← hoff, ← hs]
    by_cases hc : d < mem.length ∧ s < mem.length ∧
        (d + s) % 4294967296 < mem.length
    · rw [if_neg (by simp [hinit]), if_pos hc]
      simp only [Option.some_ne_none, false_iff]
      omega
    · rw [if_neg (by simp [hinit]), if_neg hc]
      simp only [true_iff]
      omega
  · intro hfit hsrc
    have hcond : d < mem.length ∧ s < mem.length ∧
        (d + s) % 2 ^ 32 < mem.length := by
      rw [h32]
      omega
    refine ⟨mem.take d ++ (module_bytes.drop off).take s ++ mem.drop (d + s),
            ?_, ?_, ?_, ?_, ?_⟩
    · unfold LoadDataSegment
      rw [if_neg (by simp [hinit])]
      simp only [← hd, ← hoff, ← hs]
      rw [if_pos hcond]
    · simp only [List.length_append, List.length_take, List.length_drop]
      omega
    · intro j hj
      have hlen1 : (mem.take d).length = d := by
        simp only [List.length_take]
        omega
      have hlen2 : ((module_bytes.drop off).take s).length = s := by
        simp only [List.length_take, List.length_drop]
        omega
      rw [List.append_assoc, List.getElem?_append_right (by omega),
          List.getElem?_append_left (by omega), hlen1]
      have hj2 : d + j - d = j := by omega
      rw [hj2, List.getElem?_take_of_lt hj, List.getElem?_drop]
    · intro a ha
      have hlen1 : (mem.take d).length = d := by
        simp only [List.length_take]
        omega
      rw [List.append_assoc, List.getElem?_append_left (by omega),
          List.getElem?_take_of_lt ha]
    · intro a ha
      have hlen1 : (mem.take d).length = d := by
        simp only [List.length_take]
        omega
      have hlen2 : ((module_bytes.drop off).take s).length = s := by
        simp only [List.length_take, List.length_drop]
        omega
      rw [List.append_assoc, List.getElem?_append_right (by omega)]
      rw [List.getElem?_append_right (by simp only [hlen1, hlen2]; omega)]
      rw [hlen1, hlen2, List.getElem?_drop]
      congr 1
      omega

theorem load_data_segments_bounds_witness :
    ((⟨1, 0, 2, true⟩ : WasmDataSegment).init = true ∧
      ([0, 0, 0, 0] : List Nat).length ≤ 2 ^ 31) ∧
    ((LoadDataSegments [7, 8] [⟨1, 0, 2, true⟩] [0, 0, 0, 0] = none ↔
        ([0, 0, 0, 0] : List Nat).length ≤
          (⟨1, 0, 2, true⟩ : WasmDataSegment).dest_addr +
          (⟨1, 0, 2, true⟩ : WasmDataSegment).source_size) ∧
     ((⟨1, 0, 2, true⟩ : WasmDataSegment).dest_addr +
        (⟨1, 0, 2, true⟩ : WasmDataSegment).source_size <
          ([0, 0, 0, 0] : List Nat).length →
      (⟨1, 0, 2, true⟩ : WasmDataSegment).source_offset +
        (⟨1, 0, 2, true⟩ : WasmDataSegment).source_size ≤
          ([7, 8] : List Nat).length →
      ∃ mem2, LoadDataSegments [7, 8] [⟨1, 0, 2, true⟩] [0, 0, 0, 0] =
          some mem2 ∧
        mem2.length = ([0, 0, 0, 0] : List Nat).length ∧
        (∀ j, j < (⟨1, 0, 2, true⟩ : WasmDataSegment).source_size →
           mem2[(⟨1, 0, 2, true⟩ : WasmDataSegment).dest_addr + j]? =
             ([7, 8] : List Nat)[(⟨1, 0, 2, true⟩ :
               WasmDataSegment).source_offset + j]?) ∧
        (∀ a, a < (⟨1, 0, 2, true⟩ : WasmDataSegment).dest_addr →
           mem2[a]? = ([0, 0, 0, 0] : List Nat)[a]?) ∧
        (∀ a, (⟨1, 0, 2, true⟩ : WasmDataSegment).dest_addr +
            (⟨1, 0, 2, true⟩ : WasmDataSegment).source_size ≤ a →
           mem2[a]? = ([0, 0, 0, 0] : List Nat)[a]?))) :=
  ⟨⟨rfl, by decide⟩,
   load_data_segments_bounds [7, 8] [0, 0, 0, 0] ⟨1, 0, 2, true⟩ rfl
     (by decide)⟩

/-! ## Linker (WasmLinker) -/

/-- WasmCode: kind (whether Code::WASM_FUNCTION), the constant_pool_offset
field that placeholder code objects abuse to store the function index, and
the targets of the code's direct-call relocations (code ids into the code
heap). -/
structure WasmCode where
  isWasmFunction : Bool
  constantPoolOffset : Nat
  relocs : List Nat
deriving DecidableEq, Repr

/-- kPlaceholderMarker of WasmLinker. -/
def kPlaceholderMarker : Nat := 1000000000

/-- WasmLinker state: the placeholder_code_ and function_code_ vectors
(entries are code ids; an unset Handle is none) together with the heap of
code objects the ids point into. -/
structure WasmLinker where
  placeholder_code : List (Option Nat)
  function_code : List (Option Nat)
  heap : List WasmCode
deriving DecidableEq, Repr

namespace WasmLinker

/-- WasmLinker::GetFunctionCode: returns function_code_[index], allocating
a fresh placeholder code object (marked with index + kPlaceholderMarker in
its constant-pool-offset slot) into both vectors when the entry is unset.
An out-of-range index (the DCHECK in the source) returns none. -/
def GetFunctionCode (L : WasmLinker) (index : Nat) :
    Option Nat × WasmLinker :=
  match L.function_code[index]? with
  | some (some cid) => (some cid, L)
  | some none =>
    (some L.heap.length,
     ⟨L.placeholder_code.set index (some L.heap.length),
      L.function_code.set index (some L.heap.length),
      L.heap ++ [⟨true, index + kPlaceholderMarker, []⟩]⟩)
  | none => (none, L)

/-- WasmLinker::Finish: overwrites function_code_[index]. -/
def Finish (L : WasmLinker) (index : Nat) (cid : Nat) : WasmLinker :=
  { L with function_code := L.function_code.set index (some cid) }

end WasmLinker

/-- Per-relocation decision of WasmLinker::LinkFunction: a direct-call
relocation whose target is a WASM_FUNCTION code carrying a placeholder
marker is rewritten to function_code_[index] for the index recovered from
the marker (the CHECK of the source keeps the index inside the vector); any
other relocation is left alone. -/
def resolveReloc (heap : List WasmCode) (fc : List (Option Nat))
    (r : Nat) : Nat :=
  match heap[r]? with
  | none => r
  | some target =>
    if target.isWasmFunction = true ∧
        kPlaceholderMarker ≤ target.constantPoolOffset then
      match fc[target.constantPoolOffset - kPlaceholderMarker]? with
      | some (some newId) => newId
      | some none => r
      | none => r
    else r

/-- WasmLinker::LinkFunction: patches every direct-call relocation of one
code object and counts the patches that actually changed a target (the
source's `modified` flag is patch count > 0). -/
def LinkFunction (heap : List WasmCode) (fc : List (Option Nat))
    (cid : Nat) : List WasmCode × Nat :=
  match heap[cid]? with
  | none => (heap, 0)
  | some c =>
    (heap.set cid { c with relocs := c.relocs.map (resolveReloc heap fc) },
     c.relocs.countP (fun r => resolveReloc heap fc r != r))

/-- Loop of WasmLinker::Link over function_code_, accumulating the total
patch count. -/
def linkAll (fc : List (Option Nat)) :
    List (Option Nat) → List WasmCode → List WasmCode × Nat
  | [], heap => (heap, 0)
  | none :: rest, heap => linkAll fc rest heap
  | some cid :: rest, heap =>
    let p := LinkFunction heap fc cid
    let q := linkAll fc rest p.1
    (q.1, p.2 + q.2)

/-- WasmLinker::Link: runs LinkFunction over every compiled function. -/
def WasmLinker.Link (L : WasmLinker) : WasmLinker × Nat :=
  let p := linkAll L.function_code L.function_code L.heap
  ({ L with heap := p.1 }, p.2)

/-- Kind and constant-pool-offset of every code object; patching only
rewrites reloc targets, so this data is invariant under linking. -/
def staticsOf (heap : List WasmCode) : List (Bool × Nat) :=
  heap.map (fun c => (c.isWasmFunction, c.constantPoolOffset))

/-- The code id r does not point at a placeholder-marked wasm code. -/
def NotPlaceholderAt (heap : List WasmCode) (r : Nat) : Prop :=
  ∀ c, heap[r]? = some c → c.isWasmFunction = true →
    c.constantPoolOffset < kPlaceholderMarker

/-- Every function_code_ entry is set and holds non-placeholder code
(every function was compiled and Finish-ed). -/
def finishedB (L : WasmLinker) : Bool :=
  L.function_code.all fun o =>
    match o with
    | some cid =>
      match L.heap[cid]? with
      | some c =>
        !(c.isWasmFunction && decide (kPlaceholderMarker ≤ c.constantPoolOffset))
      | none => false
    | none => false

/-- Every placeholder marker on the heap recovers an index inside
function_code_ (the CHECK of LinkFunction). -/
def markerBoundB (L : WasmLinker) : Bool :=
  L.heap.all fun c =>
    !(c.isWasmFunction && decide (kPlaceholderMarker ≤ c.constantPoolOffset)) ||
    decide (c.constantPoolOffset - kPlaceholderMarker < L.function_code.length)

theorem list_set_self {α : Type} :
    ∀ (l : List α) (i : Nat) (a : α), l[i]? = some a → l.set i a = l
  | [], i, a, h => by simp at h
  | x :: xs, 0, a, h => by
    simp only [List.getElem?_cons_zero, Option.some.injEq] at h
    simp [h]
  | x :: xs, i + 1, a, h => by
    simp only [List.getElem?_cons_succ] at h
    simp [list_set_self xs i a h]

theorem list_map_self {α : Type} (f : α → α) :
    ∀ (l : List α), (∀ a ∈ l, f a = a) → l.map f = l
  | [], _ => rfl
  | x :: xs, h => by
    simp only [List.map_cons, List.cons.injEq]
    exact ⟨h x (by simp), list_map_self f xs fun a ha => h a (by simp [ha])⟩

theorem staticsOf_getElem (heap : List WasmCode) (r : Nat) :
    (staticsOf heap)[r]? =
      (heap[r]?).map (fun c => (c.isWasmFunction, c.constantPoolOffset)) := by
  unfold staticsOf
  exact List.getElem?_map _ heap r

theorem resolveReloc_congr (h1 h2 : List WasmCode)
    (hs : staticsOf h1 = staticsOf h2) (fc : List (Option Nat)) (r : Nat) :
    resolveReloc h1 fc r = resolveReloc h2 fc r := by
  have hh : (staticsOf h1)[r]? = (staticsOf h2)[r]? := by rw [hs]
  rw [staticsOf_getElem, staticsOf_getElem] at hh
  unfold resolveReloc
  cases ha : h1[r]? with
  | none =>
    cases hb : h2[r]? with
    | none => rfl
    | some c2 => rw [ha, hb] at hh; simp at hh
  | some c1 =>
    cases hb : h2[r]? with
    | none => rw [ha, hb] at hh; simp at hh
    | some c2 =>
      rw [ha, hb] at hh
      simp only [Option.map_some', Option.some.injEq, Prod.mk.injEq] at hh
      dsimp only
      rw [hh.1, hh.2]

theorem notPlaceholderAt_congr (h1 h2 : List WasmCode)
    (hs : staticsOf h1 = staticsOf h2) (r : Nat)
    (h : NotPlaceholderAt h1 r) : NotPlaceholderAt h2 r := by
  intro c hc hwasm
  have hh : (staticsOf h1)[r]? = (staticsOf h2)[r]? := by rw [hs]
  rw [staticsOf_getElem, staticsOf_getElem, hc] at hh
  cases ha : h1[r]? with
  | none => rw [ha] at hh; simp at hh
  | some c1 =>
    rw [ha] at hh
    simp only [Option.map_some', Option.some.injEq, Prod.mk.injEq] at hh
    have := h c1 ha (by rw [hh.1, hwasm])
    omega

theorem staticsOf_LinkFunction (heap : List WasmCode)
    (fc : List (Option Nat)) (cid : Nat) :
    staticsOf (LinkFunction heap fc cid).1 = staticsOf heap := by
  unfold LinkFunction
  cases hc : heap[cid]? with
  | none => rfl
  | some c =>
    simp only [staticsOf, List.map_set]
    apply list_set_self
    rw [List.getElem?_map, hc]
    rfl

theorem staticsOf_linkAll (fc : List (Option Nat)) :
    ∀ (l : List (Option Nat)) (heap : List WasmCode),
      staticsOf (linkAll fc l heap).1 = staticsOf heap := by
  intro l
  induction l with
  | nil => intro heap; rfl
  | cons o rest ih =>
    intro heap
    cases o with
    | none => exact ih heap
    | some cid =>
      simp only [linkAll]
      rw [ih (LinkFunction heap fc cid).1, staticsOf_LinkFunction]

theorem finished_entry (L : WasmLinker) (hfin : finishedB L = true)
    (o : Option Nat) (ho : o ∈ L.function_code) :
    ∃ cid c, o = some cid ∧ L.heap[cid]? = some c ∧
      (c.isWasmFunction = true → c.constantPoolOffset < kPlaceholderMarker) := by
  have hb := List.all_eq_true.mp hfin o ho
  cases o with
  | none => simp at hb
  | some cid =>
    dsimp only at hb
    cases hc : L.heap[cid]? with
    | none => rw [hc] at hb; simp at hb
    | some c =>
      rw [hc] at hb
      dsimp only at hb
      refine ⟨cid, c, rfl, hc, fun hw => ?_⟩
      rw [hw] at hb
      simp at hb
      omega

theorem marker_bound (L : WasmLinker) (hmb : markerBoundB L = true)
    (c : WasmCode) (hc : c ∈ L.heap) (hw : c.isWasmFunction = true)
    (hp : kPlaceholderMarker ≤ c.constantPoolOffset) :
    c.constantPoolOffset - kPlaceholderMarker < L.function_code.length := by
  have hb := List.all_eq_true.mp hmb c hc
  rw [hw] at hb
  simp at hb
  rcases hb with hb | hb
  · omega
  · exact hb

theorem notPlaceholder_fixed (heap : List WasmCode) (fc : List (Option Nat))
    (r : Nat) (h : NotPlaceholderAt heap r) : resolveReloc heap fc r = r := by
  unfold resolveReloc
  cases hc : heap[r]? with
  | none => rfl
  | some c =>
    dsimp only
    rw [if_neg]
    rintro ⟨hw, hp⟩
    have := h c hc hw
    omega

set_option maxRecDepth 2048 in
theorem resolve_not_placeholder (L : WasmLinker) (hfin : finishedB L = true)
    (hmb : markerBoundB L = true) (r : Nat) :
    NotPlaceholderAt L.heap (resolveReloc L.heap L.function_code r) := by
  unfold resolveReloc
  cases hc : L.heap[r]? with
  | none =>
    dsimp only
    intro c hcc _
    rw [hc] at hcc
    cases hcc
  | some target =>
    dsimp only
    by_cases hcond : target.isWasmFunction = true ∧
        kPlaceholderMarker ≤ target.constantPoolOffset
    · rw [if_pos hcond]
      have hmem : target ∈ L.heap := List.getElem?_mem hc
      have hidx := marker_bound L hmb target hmem hcond.1 hcond.2
      obtain ⟨o, ho⟩ : ∃ o, L.function_code[target.constantPoolOffset -
          kPlaceholderMarker]? = some o := by
        rcases hx : L.function_code[target.constantPoolOffset -
            kPlaceholderMarker]? with _ | o
        · rw [List.getElem?_eq_none_iff] at hx
          omega
        · exact ⟨o, rfl⟩
      have homem : o ∈ L.function_code := List.getElem?_mem ho
      obtain ⟨cid, c2, hoeq, hc2, hnp⟩ := finished_entry L hfin _ homem
      subst hoeq
      rw [ho]
      dsimp only
      intro c3 hc3 hw3
      rw [hc2] at hc3
      have he : c2 = c3 := Option.some.inj hc3
      subst he
      exact hnp hw3
    · rw [if_neg hcond]
      intro c3 hc3 hw3
      rw [hc] at hc3
      have he : target = c3 := Option.some.inj hc3
      subst he
      by_contra hge
      exact hcond ⟨hw3, by omega⟩

theorem fixed_not_placeholder (L : WasmLinker) (hfin : finishedB L = true)
    (hmb : markerBoundB L = true) (r : Nat)
    (h : resolveReloc L.heap L.function_code r = r) :
    NotPlaceholderAt L.heap r := by
  intro c hc hw
  by_contra hge
  push_neg at hge
  have hmem := List.getElem?_mem hc
  have hidx := marker_bound L hmb c hmem hw hge
  obtain ⟨o, ho⟩ : ∃ o,
      L.function_code[c.constantPoolOffset - kPlaceholderMarker]? = some o := by
    rcases hx : L.function_code[c.constantPoolOffset -
        kPlaceholderMarker]? with _ | o
    · rw [List.getElem?_eq_none_iff] at hx
      omega
    · exact ⟨o, rfl⟩
  have homem : o ∈ L.function_code := List.getElem?_mem ho
  obtain ⟨cid, c2, hoeq, hc2, hnp⟩ := finished_entry L hfin _ homem
  subst hoeq
  have hres : resolveReloc L.heap L.function_code r = cid := by
    unfold resolveReloc
    rw [hc]
    dsimp only
    rw [if_pos ⟨hw, hge⟩, ho]
  rw [hres] at h
  subst h
  rw [hc] at hc2
  have he : c = c2 := Option.some.inj hc2
  subst he
  have := hnp hw
  omega

/-- The relocations of heap2's code object cid are all fixed points of the
patching function of linker L. -/
def FixedRel (L : WasmLinker) (heap2 : List WasmCode) (cid : Nat) : Prop :=
  ∀ c, heap2[cid]? = some c →
    ∀ r ∈ c.relocs, resolveReloc L.heap L.function_code r = r

theorem resolve_idem (L : WasmLinker) (hfin : finishedB L = true)
    (hmb : markerBoundB L = true) (r : Nat) :
    resolveReloc L.heap L.function_code
      (resolveReloc L.heap L.function_code r) =
    resolveReloc L.heap L.function_code r :=
  notPlaceholder_fixed _ _ _ (resolve_not_placeholder L hfin hmb r)

theorem LinkFunction_fixes (L : WasmLinker) (hfin : finishedB L = true)
    (hmb : markerBoundB L = true) (heap2 : List WasmCode)
    (hs : staticsOf heap2 = staticsOf L.heap) (cid : Nat) :
    FixedRel L (LinkFunction heap2 L.function_code cid).1 cid := by
  unfold LinkFunction
  cases hc : heap2[cid]? with
  | none =>
    dsimp only
    intro c hcc r hr
    rw [hc] at hcc
    cases hcc
  | some c =>
    dsimp only
    intro c2 hc2 r hr
    have hlen : cid < heap2.length := by
      rcases List.getElem?_eq_some_iff.mp hc with ⟨hl, _⟩
      exact hl
    rw [List.getElem?_set_self (by simpa using hlen)] at hc2
    have he := Option.some.inj hc2
    subst he
    simp only [List.mem_map] at hr
    obtain ⟨r0, hr0, hre⟩ := hr
    rw [← hre, resolveReloc_congr heap2 L.heap hs]
    exact resolve_idem L hfin hmb r0

theorem linkAll_post (L : WasmLinker) (hfin : finishedB L = true)
    (hmb : markerBoundB L = true) :
    ∀ (l : List (Option Nat)) (heap2 : List WasmCode),
      staticsOf heap2 = staticsOf L.heap →
      staticsOf (linkAll L.function_code l heap2).1 = staticsOf L.heap ∧
      (∀ cid, FixedRel L heap2 cid →
        FixedRel L (linkAll L.function_code l heap2).1 cid) ∧
      (∀ cid, some cid ∈ l →
        FixedRel L (linkAll L.function_code l heap2).1 cid) := by
  intro l
  induction l with
  | nil =>
    intro heap2 hs
    exact ⟨hs, fun _ h => h, fun cid hm => absurd hm (by simp)⟩
  | cons o rest ih =>
    intro heap2 hs
    cases o with
    | none =>
      obtain ⟨a, b, c⟩ := ih heap2 hs
      refine ⟨a, b, fun cid hm => c cid ?_⟩
      simpa using hm
    | some cid0 =>
      have hs1 : staticsOf (LinkFunction heap2 L.function_code cid0).1 =
          staticsOf L.heap := by
        rw [staticsOf_LinkFunction]
        exact hs
      obtain ⟨a, b, c⟩ := ih (LinkFunction heap2 L.function_code cid0).1 hs1
      have hfixes : FixedRel L (LinkFunction heap2 L.function_code cid0).1 cid0 :=
        LinkFunction_fixes L hfin hmb heap2 hs cid0
      have hpres : ∀ cid2, FixedRel L heap2 cid2 →
          FixedRel L (LinkFunction heap2 L.function_code cid0).1 cid2 := by
        intro cid2 hfix
        by_cases he : cid0 = cid2
        · subst he
          exact hfixes
        · unfold LinkFunction
          cases hc : heap2[cid0]? with
          | none => exact hfix
          | some c0 =>
            dsimp only
            intro c2 hc2 r hr
            rw [List.getElem?_set_ne he] at hc2
            exact hfix c2 hc2 r hr
      refine ⟨?_, ?_, ?_⟩
      · simp only [linkAll]
        exact a
      · intro cid2 hfix
        simp only [linkAll]
        exact b cid2 (hpres cid2 hfix)
      · intro cid2 hm
        simp only [linkAll]
        rcases List.mem_cons.mp hm with he | hm2
        · have he2 : cid2 = cid0 := by injection he
          subst he2
          exact b cid2 hfixes
        · exact c cid2 hm2

theorem linkAll_id (L : WasmLinker) :
    ∀ (l : List (Option Nat)) (heap2 : List WasmCode),
      staticsOf heap2 = staticsOf L.heap →
      (∀ cid, some cid ∈ l → FixedRel L heap2 cid) →
      linkAll L.function_code l heap2 = (heap2, 0) := by
  intro l
  induction l with
  | nil =>
    intro heap2 _ _
    rfl
  | cons o rest ih =>
    intro heap2 hs hfix
    cases o with
    | none =>
      simp only [linkAll]
      exact ih heap2 hs fun cid hm => hfix cid (by simp [hm])
    | some cid0 =>
      have hLF : LinkFunction heap2 L.function_code cid0 = (heap2, 0) := by
        unfold LinkFunction
        cases hc : heap2[cid0]? with
        | none => rfl
        | some c =>
          dsimp only
          have hfx := hfix cid0 (by simp) c hc
          have hmap : c.relocs.map (resolveReloc heap2 L.function_code) =
              c.relocs := by
            apply list_map_self
            intro r hr
            rw [resolveReloc_congr heap2 L.heap hs]
            exact hfx r hr
          have hcount : c.relocs.countP
              (fun r => resolveReloc heap2 L.function_code r != r) = 0 := by
            rw [List.countP_eq_zero]
            intro r hr
            simp only [bne_iff_ne, ne_eq, Decidable.not_not]
            rw [resolveReloc_congr heap2 L.heap hs]
            exact hfx r hr
          rw [hmap, hcount]
          show (heap2.set cid0 c, 0) = (heap2, 0)
          rw [list_set_self heap2 cid0 c hc]
      simp only [linkAll, hLF]
      rw [ih heap2 hs fun cid hm => hfix cid (by simp [hm])]
      rfl

/-- C4: the linker reaches a fixed point.  If every function_code_ entry
holds finished non-placeholder code and every placeholder marker recovers
an in-range index, then after Link() no direct-call relocation of any
function's code targets a placeholder code object, and running Link()
again performs zero patches and returns the state unchanged. -/
theorem wasm_linker_link_fixed_point (L : WasmLinker)
    (hfin : finishedB L = true) (hmb : markerBoundB L = true) :
    (∀ (i cid : Nat) (c : WasmCode),
       (WasmLinker.Link L).1.function_code[i]? = some (some cid) →
       (WasmLinker.Link L).1.heap[cid]? = some c →
       ∀ r ∈ c.relocs, NotPlaceholderAt (WasmLinker.Link L).1.heap r) ∧
    WasmLinker.Link (WasmLinker.Link L).1 = ((WasmLinker.Link L).1, 0) := by
  obtain ⟨hstat, hpres, hproc⟩ :=
    linkAll_post L hfin hmb L.function_code L.heap rfl
  constructor
  · intro i cid c hfc hheap r hr
    have hm : some cid ∈ L.function_code := List.getElem?_mem hfc
    have hfx := hproc cid hm c hheap r hr
    exact notPlaceholderAt_congr L.heap
      (linkAll L.function_code L.function_code L.heap).1 hstat.symm
      r (fixed_not_placeholder L hfin hmb r hfx)
  · have hid := linkAll_id L L.function_code
      (linkAll L.function_code L.function_code L.heap).1 hstat
      (fun cid hm => hproc cid hm)
    simp only [WasmLinker.Link]
    rw [hid]

/-- Small linker state: function 0 is finished with real code (id 1) whose
single relocation still targets the placeholder (id 0) for function 0. -/
def exampleLinker : WasmLinker :=
  ⟨[some 0], [some 1], [⟨true, kPlaceholderMarker, []⟩, ⟨true, 0, [0]⟩]⟩

theorem wasm_linker_link_fixed_point_witness :
    (finishedB exampleLinker = true ∧ markerBoundB exampleLinker = true) ∧
    ((∀ (i cid : Nat) (c : WasmCode),
        (WasmLinker.Link exampleLinker).1.function_code[i]? =
          some (some cid) →
        (WasmLinker.Link exampleLinker).1.heap[cid]? = some c →
        ∀ r ∈ c.relocs,
          NotPlaceholderAt (WasmLinker.Link exampleLinker).1.heap r) ∧
     WasmLinker.Link (WasmLinker.Link exampleLinker).1 =
       ((WasmLinker.Link exampleLinker).1, 0)) :=
  ⟨⟨by decide, by decide⟩,
   wasm_linker_link_fixed_point exampleLinker (by decide) (by decide)⟩

/-- C10: GetFunctionCode is idempotent per index.  For a valid index whose
function_code_ entry is unset, the first call allocates exactly one
placeholder code object, marked with index + kPlaceholderMarker in its
constant-pool-offset slot, stores it in both the placeholder and
function-code tables, and a subsequent call before Finish returns the same
code object without allocating or changing anything. -/
theorem get_function_code_idempotent (L : WasmLinker) (i : Nat)
    (h : L.function_code[i]? = some none) :
    (WasmLinker.GetFunctionCode L i).1 = some L.heap.length ∧
    (WasmLinker.GetFunctionCode L i).2.heap =
      L.heap ++ [⟨true, i + kPlaceholderMarker, []⟩] ∧
    (WasmLinker.GetFunctionCode L i).2.placeholder_code =
      L.placeholder_code.set i (some L.heap.length) ∧
    (WasmLinker.GetFunctionCode L i).2.function_code =
      L.function_code.set i (some L.heap.length) ∧
    WasmLinker.GetFunctionCode (WasmLinker.GetFunctionCode L i).2 i =
      (some L.heap.length, (WasmLinker.GetFunctionCode L i).2) := by
  have hlen : i < L.function_code.length := by
    rcases List.getElem?_eq_some_iff.mp h with ⟨hl, _⟩
    exact hl
  have h2 : (L.function_code.set i (some L.heap.length))[i]? =
      some (some L.heap.length) :=
    List.getElem?_set_self (by simpa using hlen)
  simp only [WasmLinker.GetFunctionCode, h, h2]
  exact ⟨trivial, trivial, trivial, trivial, trivial⟩

theorem get_function_code_idempotent_witness :
    ((⟨[none], [none], []⟩ : WasmLinker).function_code[0]? = some none) ∧
    ((WasmLinker.GetFunctionCode ⟨[none], [none], []⟩ 0).1 =
       some ([] : List WasmCode).length ∧
     (WasmLinker.GetFunctionCode ⟨[none], [none], []⟩ 0).2.heap =
       ([] : List WasmCode) ++ [⟨true, 0 + kPlaceholderMarker, []⟩] ∧
     (WasmLinker.GetFunctionCode ⟨[none], [none], []⟩ 0).2.placeholder_code =
       ([none] : List (Option Nat)).set 0 (some ([] : List WasmCode).length) ∧
     (WasmLinker.GetFunctionCode ⟨[none], [none], []⟩ 0).2.function_code =
       ([none] : List (Option Nat)).set 0 (some ([] : List WasmCode).length) ∧
     WasmLinker.GetFunctionCode
         (WasmLinker.GetFunctionCode ⟨[none], [none], []⟩ 0).2 0 =
       (some ([] : List WasmCode).length,
        (WasmLinker.GetFunctionCode ⟨[none], [none], []⟩ 0).2)) :=
  ⟨rfl, get_function_code_idempotent ⟨[none], [none], []⟩ 0 rfl⟩

/-! ## Statement semantics for the Switch-with-fallthrough scenario -/

/-- Expressions of the test bytecode needed for the switch scenario
(kExprI8Const and kExprGetLocal). -/
inductive WExpr where
  | I8 (v : Int)
  | GetLocal (i : Nat)
deriving DecidableEq, Repr

/-- Statements of the test bytecode needed for the switch scenario
(kStmtNop, kStmtBlock, kStmtSwitch with fallthrough, kStmtReturn). -/
inductive WStmt where
  | Nop
  | Block (stmts : List WStmt)
  | Switch (key : WExpr) (cases : List WStmt)
  | Return (e : WExpr)
deriving Repr

/-- Outcome of executing a statement: fall through normally, break out of
depth-many enclosing labeled constructs, or return a value. -/
inductive WOutcome where
  | normal
  | brk (depth : Nat)
  | ret (v : Int)
deriving DecidableEq, Repr

/-- Modelled from the spec: expression evaluation of the function
verifier/executor (C4 of the spec); the verifier and code generator are
not under src/.  I8 constants carry a signed byte; GetLocal reads the
i-th local, locals 0..P-1 being the parameters. -/
def evalExpr (locals : List Int) : WExpr → Int
  | .I8 v => v
  | .GetLocal i => locals.getD i 0

/-- Modelled from the spec: leaving a labeled construct (Block or Switch)
consumes one break level: Break(0) targets this construct and exits it
normally; deeper breaks propagate with depth - 1. -/
def leaveLabel : WOutcome → WOutcome
  | .brk 0 => .normal
  | .brk (d + 1) => .brk d
  | o => o

mutual
/-- Modelled from the spec (section 4.4 and section 8, scenario 6): the
executable semantics of the statement subset the switch scenario uses.
Block introduces a label and runs its statements in order; Switch
evaluates its I32 key, and if the key selects a case, executes the
selected case AND all following cases in order (fallthrough) until a
Break exits the switch block; an out-of-range key executes no case;
Return terminates the function with its expression's value. -/
def execStmt (locals : List Int) : WStmt → WOutcome
  | .Nop => .normal
  | .Block ss => leaveLabel (execFrom locals ss 0)
  | .Switch k cases =>
    leaveLabel
      (if 0 ≤ evalExpr locals k ∧
          (evalExpr locals k).toNat < cases.length then
        execFrom locals cases (evalExpr locals k).toNat
      else .normal)
  | .Return e => .ret (evalExpr locals e)

/-- Modelled from the spec: execute the statements of a list from the
given index onward, falling through from one to the next while each one
completes normally. -/
def execFrom (locals : List Int) : List WStmt → Nat → WOutcome
  | [], _ => .normal
  | s :: rest, 0 =>
    match execStmt locals s with
    | .normal => execFrom locals rest 0
    | o => o
  | _ :: rest, n + 1 => execFrom locals rest n
end

/-- The body built by the Run_Wasm_Switch4_fallthru test:
Block(2, Switch(4, GetLocal 0, Nop, Return I8 45, Nop, Return I8 47),
Return(GetLocal 0)). -/
def switch4Body : WStmt :=
  .Block [.Switch (.GetLocal 0)
            [.Nop, .Return (.I8 45), .Nop, .Return (.I8 47)],
          .Return (.GetLocal 0)]

/-- Run the switch scenario's function of signature (I32) -> I32 on one
argument: the value of the Return reached, if any. -/
def runSwitch4 (input : Int) : Option Int :=
  match execStmt [input] switch4Body with
  | .ret v => some v
  | _ => none

/-- C5: the Switch-with-fallthrough function (cases Nop, Return I8 45,
Nop, Return I8 47, keyed on local 0, followed by Return(GetLocal 0))
returns -1 for input -1, 45 for inputs 0 and 1, 47 for inputs 2 and 3,
and 4 for input 4: the selected case and all following cases execute
until a return, and an out-of-range key executes no case. -/
theorem switch4_fallthru_results :
    runSwitch4 (-1) = some (-1) ∧ runSwitch4 0 = some 45 ∧
    runSwitch4 1 = some 45 ∧ runSwitch4 2 = some 47 ∧
    runSwitch4 3 = some 47 ∧ runSwitch4 4 = some 4 := by
  decide

/-! ## Bytecode emitter (AsmWasmBuilderImpl) and the while lowering -/

/-- Emitted byte tokens.  The numeric values of the kExpr opcodes live in
wasm-opcodes.h, which is not under src/, so an opcode byte is modelled by
its own token; byte b is a literal operand byte. -/
inductive EmitTok where
  | blockOp
  | ifOp
  | ifThenOp
  | loopOp
  | brOp
  | getLocalOp
  | boolNotOp
  | i32ConstOp
  | byte (b : Nat)
deriving DecidableEq, Repr

/-- Modelled from the spec: UnsignedLEB128From lives in the encoder, which
is not under src/; standard unsigned LEB128, 7 bits per byte, little
endian, high bit set on every byte but the last. -/
def leb128 (n : Nat) : List Nat :=
  if n < 128 then [n]
  else (n % 128 + 128) :: leb128 (n / 128)
termination_by n
decreasing_by
  exact Nat.div_lt_self (by omega) (by omega)

/-- Little-endian operand bytes of an I32 constant (the WASM_I32 macro of
wasm-macro-gen.h, which is not under src/). -/
def i32Bytes (v : Int) : List Nat :=
  [(v % 2 ^ 32).toNat % 256, (v % 2 ^ 32).toNat / 256 % 256,
   (v % 2 ^ 32).toNat / 65536 % 256, (v % 2 ^ 32).toNat / 16777216 % 256]

/-- Expression subset of the typed AST the emitter walks: an I32 numeric
literal (VisitLiteral), a local variable read (VisitVariableProxy) and
logical not (VisitUnaryOperation). -/
inductive AsmExpr where
  | I32Lit (v : Int)
  | Var (i : Nat)
  | NotOp (e : AsmExpr)
deriving Repr

/-- Emission of an expression by the corresponding Visit methods of
AsmWasmBuilderImpl. -/
def emitExpr : AsmExpr → List EmitTok
  | .I32Lit v => .i32ConstOp :: (i32Bytes v).map .byte
  | .Var i => .getLocalOp :: (leb128 i).map .byte
  | .NotOp e => .boolNotOp :: emitExpr e

/-- Statement subset of the typed AST the emitter walks. -/
inductive AsmStmt where
  | Block (stmts : List AsmStmt)
  | If (cond : AsmExpr) (thn : AsmStmt)
  | IfElse (cond : AsmExpr) (thn els : AsmStmt)
  | While (cond : AsmExpr) (body : AsmStmt)
  | Return (e : AsmExpr)
  | ExprStmt (e : AsmExpr)
  | Empty
deriving Repr

/-- Statement::IsJump of the AST: VisitStatements stops emitting a
statement list after a jump statement (of this subset, a return). -/
def isJump : AsmStmt → Bool
  | .Return _ => true
  | _ => false

mutual
/-- Statement emission of AsmWasmBuilderImpl. The state is block_depth_
and the breakable_blocks_ stack of is-loop flags: VisitBlock emits
kExprBlock and the statement count and enters one label; VisitIfStatement
emits kExprIf (or kExprIfThen with an else part), the condition, and the
branch statements; VisitWhileStatement emits kExprLoop with count byte 1,
then kExprIf, the condition, kExprBr with depth byte 0, and the loop body,
entering two label slots with an is-loop flag; VisitReturnStatement emits
kExprBr with the current block depth and the returned expression. -/
def emitStmt (bd : Nat) (stk : List Bool) : AsmStmt → List EmitTok
  | .Block ss => .blockOp :: .byte ss.length :: emitSeq (bd + 1) (stk ++ [false]) ss
  | .If c t => .ifOp :: (emitExpr c ++ emitStmt bd stk t)
  | .IfElse c t e =>
    .ifThenOp :: (emitExpr c ++ emitStmt bd stk t ++ emitStmt bd stk e)
  | .While c b =>
    .loopOp :: .byte 1 :: .ifOp ::
      (emitExpr c ++ ([.brOp, .byte 0] ++ emitStmt (bd + 2) (stk ++ [true]) b))
  | .Return e => .brOp :: .byte bd :: emitExpr e
  | .ExprStmt e => emitExpr e
  | .Empty => []

/-- Emission of a statement list (the loop of VisitStatements, which stops
after a jump statement). -/
def emitSeq (bd : Nat) (stk : List Bool) : List AsmStmt → List EmitTok
  | [] => []
  | s :: rest =>
    emitStmt bd stk s ++ (if isJump s then [] else emitSeq bd stk rest)
end

/-- Modelled from the spec: the execution semantics of the emitter's
target bytecode (the verifier/graph builder and code generator are not
under src/).  Statements over a state type: a primitive state update (the
effect of a loop body), a conditional (kExprIf: the statement runs when
the I32 condition is nonzero), a branch kExprBr carrying a depth and an
operand evaluated before branching, and a loop (kExprLoop) over a
statement list. -/
inductive CStmt (σ : Type) where
  | basic (f : σ → σ)
  | ifC (c : σ → Int) (t : CStmt σ)
  | br (depth : Nat) (operand : CStmt σ)
  | loop (body : List (CStmt σ))

/-- Result of running a statement: fall through normally, or branch to
the d-th enclosing label. -/
inductive CRes (σ : Type) where
  | norm (s : σ)
  | branch (d : Nat) (s : σ)

mutual
/-- Modelled from the spec (section 4.4 and the emitter's label
bookkeeping in asm-wasm-builder.cc): fuel-indexed interpreter.  A loop
occupies two label slots (block_depth_ += 2 in VisitWhileStatement): the
innermost (depth 0 from inside, the Continue target of section 4.4) is the
loop's back edge, depth 1 is the loop's exit; running off the end of the
loop body leaves the loop.  Branch depths below the loop's two slots
propagate outward, decremented by two. -/
def interp {σ : Type} : Nat → CStmt σ → σ → Option (CRes σ)
  | 0, _, _ => none
  | _ + 1, .basic g, s => some (.norm (g s))
  | fuel + 1, .ifC c t, s =>
    if c s ≠ 0 then interp fuel t s else some (.norm s)
  | fuel + 1, .br d t, s =>
    match interp fuel t s with
    | some (.norm s2) => some (.branch d s2)
    | r => r
  | fuel + 1, .loop body, s =>
    match interpSeq fuel body s with
    | some (.norm s2) => some (.norm s2)
    | some (.branch 0 s2) => interp fuel (.loop body) s2
    | some (.branch 1 s2) => some (.norm s2)
    | some (.branch (d + 2) s2) => some (.branch d s2)
    | none => none

/-- Modelled from the spec: sequential execution of a statement list; a
branch aborts the rest of the list. -/
def interpSeq {σ : Type} : Nat → List (CStmt σ) → σ → Option (CRes σ)
  | _, [], s => some (.norm s)
  | 0, _ :: _, _ => none
  | fuel + 1, st :: rest, s =>
    match interp fuel st s with
    | some (.norm s2) => interpSeq fuel rest s2
    | r => r
end

/-- The while loop as the spec words it: the body executes once per
iteration as long as the condition holds, and the loop ends in the first
state whose condition is zero. -/
inductive WhileEval {σ : Type} (c : σ → Int) (b : σ → σ) : σ → σ → Prop where
  | done (s : σ) : c s = 0 → WhileEval c b s s
  | step (s s2 : σ) : c s ≠ 0 → WhileEval c b (b s) s2 → WhileEval c b s s2

/-- The structured form of the emitter's while lowering:
Loop(1, If(cond, Br(0, body))). -/
def loweredWhile {σ : Type} (c : σ → Int) (b : σ → σ) : CStmt σ :=
  .loop [.ifC c (.br 0 (.basic b))]

theorem interp_succ_basic {σ : Type} (fuel : Nat) (g : σ → σ) (s : σ) :
    interp (fuel + 1) (.basic g) s = some (.norm (g s)) := rfl

theorem interp_succ_ifC {σ : Type} (fuel : Nat) (c : σ → Int) (t : CStmt σ)
    (s : σ) :
    interp (fuel + 1) (.ifC c t) s =
      if c s ≠ 0 then interp fuel t s else some (.norm s) := rfl

theorem interp_succ_br {σ : Type} (fuel : Nat) (d : Nat) (t : CStmt σ)
    (s : σ) :
    interp (fuel + 1) (.br d t) s =
      (match interp fuel t s with
       | some (.norm s2) => some (.branch d s2)
       | r => r) := rfl

theorem interp_succ_loop {σ : Type} (fuel : Nat) (body : List (CStmt σ))
    (s : σ) :
    interp (fuel + 1) (.loop body) s =
      (match interpSeq fuel body s with
       | some (.norm s2) => some (.norm s2)
       | some (.branch 0 s2) => interp fuel (.loop body) s2
       | some (.branch 1 s2) => some (.norm s2)
       | some (.branch (d + 2) s2) => some (.branch d s2)
       | none => none) := rfl

theorem interpSeq_succ_cons {σ : Type} (fuel : Nat) (st : CStmt σ)
    (rest : List (CStmt σ)) (s : σ) :
    interpSeq (fuel + 1) (st :: rest) s =
      (match interp fuel st s with
       | some (.norm s2) => interpSeq fuel rest s2
       | r => r) := rfl

theorem interpSeq_nil {σ : Type} (fuel : Nat) (s : σ) :
    interpSeq fuel [] s = some (.norm s) := by
  rcases fuel with _ | f <;> rfl

theorem interp_mono_aux {σ : Type} :
    ∀ fuel : Nat,
      (∀ (st : CStmt σ) (s : σ) (r : CRes σ),
        interp fuel st s = some r → interp (fuel + 1) st s = some r) ∧
      (∀ (L : List (CStmt σ)) (s : σ) (r : CRes σ),
        interpSeq fuel L s = some r → interpSeq (fuel + 1) L s = some r) := by
  intro fuel
  induction fuel with
  | zero =>
    constructor
    · intro st s r h
      simp [interp] at h
    · intro L s r h
      cases L with
      | nil => simpa [interpSeq] using h
      | cons st rest => simp [interpSeq] at h
  | succ f ih =>
    constructor
    · intro st s r h
      cases st with
      | basic g => simpa [interp] using h
      | ifC c t =>
        simp only [interp] at h ⊢
        by_cases hc : c s ≠ 0
        · rw [if_pos hc] at h ⊢
          exact ih.1 t s r h
        · rw [if_neg hc] at h ⊢
          exact h
      | br d t =>
        simp only [interp] at h ⊢
        cases hi : interp f t s with
        | none => rw [hi] at h; simp at h
        | some r2 =>
          rw [hi] at h
          rw [ih.1 t s r2 hi]
          cases r2 with
          | norm s2 => exact h
          | branch d2 s2 => exact h
      | loop body =>
        simp only [interp] at h ⊢
        cases hi : interpSeq f body s with
        | none => rw [hi] at h; simp at h
        | some r2 =>
          rw [hi] at h
          rw [ih.2 body s r2 hi]
          cases r2 with
          | norm s2 => exact h
          | branch d2 s2 =>
            match d2 with
            | 0 => exact ih.1 (.loop body) s2 r h
            | 1 => exact h
            | d3 + 2 => exact h
    · intro L s r h
      cases L with
      | nil => simpa [interpSeq] using h
      | cons st rest =>
        simp only [interpSeq] at h ⊢
        cases hi : interp f st s with
        | none => rw [hi] at h; simp at h
        | some r2 =>
          rw [hi] at h
          rw [ih.1 st s r2 hi]
          cases r2 with
          | norm s2 => exact ih.2 rest s2 r h
          | branch d2 s2 => exact h

theorem interp_mono_le {σ : Type} (st : CStmt σ) (s : σ) (r : CRes σ)
    (f g : Nat) (hfg : f ≤ g) (h : interp f st s = some r) :
    interp g st s = some r := by
  induction g with
  | zero =>
    have : f = 0 := by omega
    subst this
    exact h
  | succ g2 ih =>
    rcases Nat.lt_or_ge f (g2 + 1) with hlt | hge
    · exact (interp_mono_aux g2).1 st s r (ih (by omega))
    · have : f = g2 + 1 := by omega
      subst this
      exact h

theorem lowered_done {σ : Type} (c : σ → Int) (b : σ → σ) (s : σ)
    (h : c s = 0) (f : Nat) :
    interp (f + 3) (loweredWhile c b) s = some (.norm s) := by
  have hone : interp (f + 1) (.ifC c (.br 0 (.basic b))) s =
      some (.norm s) := by
    rw [interp_succ_ifC, if_neg (by simp [h])]
  have hseq : interpSeq (f + 2) [.ifC c (.br 0 (.basic b))] s =
      some (.norm s) := by
    show interpSeq ((f + 1) + 1) [.ifC c (.br 0 (.basic b))] s =
      some (.norm s)
    rw [interpSeq_succ_cons, hone]
    exact interpSeq_nil (f + 1) s
  show interp ((f + 2) + 1) (.loop [.ifC c (.br 0 (.basic b))]) s =
    some (.norm s)
  rw [interp_succ_loop, hseq]

theorem lowered_step {σ : Type} (c : σ → Int) (b : σ → σ) (s : σ)
    (h : c s ≠ 0) (g : Nat) (hg : 4 ≤ g) :
    interp (g + 1) (loweredWhile c b) s = interp g (loweredWhile c b) (b s) := by
  obtain ⟨f, rfl⟩ : ∃ f, g = f + 4 := ⟨g - 4, by omega⟩
  have h1 : interp (f + 1) (.basic b) s = some (.norm (b s)) :=
    interp_succ_basic f b s
  have h2 : interp (f + 2) (.br 0 (.basic b)) s =
      some (.branch 0 (b s)) := by
    show interp ((f + 1) + 1) (.br 0 (.basic b)) s = some (.branch 0 (b s))
    rw [interp_succ_br, h1]
  have h3 : interp (f + 3) (.ifC c (.br 0 (.basic b))) s =
      some (.branch 0 (b s)) := by
    show interp ((f + 2) + 1) (.ifC c (.br 0 (.basic b))) s =
      some (.branch 0 (b s))
    rw [interp_succ_ifC, if_pos h]
    exact h2
  have hseq : interpSeq (f + 4) [.ifC c (.br 0 (.basic b))] s =
      some (.branch 0 (b s)) := by
    show interpSeq ((f + 3) + 1) [.ifC c (.br 0 (.basic b))] s =
      some (.branch 0 (b s))
    rw [interpSeq_succ_cons, h3]
  show interp ((f + 4) + 1) (.loop [.ifC c (.br 0 (.basic b))]) s =
    interp (f + 4) (.loop [.ifC c (.br 0 (.basic b))]) (b s)
  rw [interp_succ_loop, hseq]

theorem lowered_to_whileEval {σ : Type} (c : σ → Int) (b : σ → σ) :
    ∀ (fuel : Nat) (s out : σ),
      interp fuel (loweredWhile c b) s = some (.norm out) →
      WhileEval c b s out := by
  intro fuel
  induction fuel using Nat.strong_induction_on with
  | _ fuel ih =>
    intro s out h
    by_cases hc : c s = 0
    · match fuel with
      | 0 => simp [interp] at h
      | 1 => simp [interp, interpSeq, loweredWhile] at h
      | 2 => simp [interp, interpSeq, loweredWhile, hc] at h
      | f + 3 =>
        rw [lowered_done c b s hc f] at h
        have : s = out := by
          have := Option.some.inj h
          cases this
          rfl
        subst this
        exact WhileEval.done s hc
    · match fuel with
      | 0 => simp [interp] at h
      | 1 => simp [interp, interpSeq, loweredWhile] at h
      | 2 => simp [interp, interpSeq, loweredWhile, hc] at h
      | 3 => simp [interp, interpSeq, loweredWhile, hc] at h
      | 4 => simp [interp, interpSeq, loweredWhile, hc] at h
      | f + 5 =>
        rw [lowered_step c b s hc (f + 4) (by omega)] at h
        exact WhileEval.step s out hc (ih (f + 4) (by omega) (b s) out h)

theorem whileEval_to_lowered {σ : Type} (c : σ → Int) (b : σ → σ)
    (s out : σ) (h : WhileEval c b s out) :
    ∃ fuel, interp fuel (loweredWhile c b) s = some (.norm out) := by
  induction h with
  | done s1 hcs => exact ⟨3, lowered_done c b s1 hcs 0⟩
  | step s1 s2 hne _ ih =>
    obtain ⟨f, hf⟩ := ih
    refine ⟨max f 4 + 1, ?_⟩
    rw [lowered_step c b s1 hne (max f 4) (Nat.le_max_right f 4)]
    exact interp_mono_le _ _ _ f (max f 4) (Nat.le_max_left f 4) hf

/-- C6: the bytecode emitter lowers every while statement to
Loop(1, If(cond, Break(0)); body): the emitted tokens are a Loop opcode
with count byte 1, then an If whose condition is the while condition and
whose statement is a break of depth 0, followed by the emitted loop body
(emitted at block depth + 2 inside the loop's label entry); and under the
modelled bytecode semantics the lowered form runs the body inside the
loop each iteration exactly as long as the condition holds. -/
theorem while_lowering :
    (∀ (bd : Nat) (stk : List Bool) (cond : AsmExpr) (body : AsmStmt),
       emitStmt bd stk (.While cond body) =
         [.loopOp, .byte 1, .ifOp] ++ emitExpr cond ++
           ([.brOp, .byte 0] ++ emitStmt (bd + 2) (stk ++ [true]) body)) ∧
    (∀ (σ : Type) (c : σ → Int) (b : σ → σ) (s out : σ),
       (∃ fuel, interp fuel (loweredWhile c b) s = some (.norm out)) ↔
         WhileEval c b s out) := by
  constructor
  · intro bd stk cond body
    simp [emitStmt]
  · intro σ c b s out
    constructor
    · rintro ⟨fuel, hf⟩
      exact lowered_to_whileEval c b fuel s out hf
    · exact whileEval_to_lowered c b s out
